import Mathlib

/-!
Shallow embedding of `base/experience_replay.py` from the laser-hockey
repository: a fixed-capacity circular experience-replay store with a
uniform and a prioritized sampling variant.  Machine floats are modelled
as real numbers; the numpy random draws are passed in as explicit
parameters constrained by the documented contracts of the numpy
primitives the code calls.  The segment trees (`segment_tree.py`) are
imported by the code but are not among the provided sources, so they are
modelled from the spec (§4.1), which pins their observable behaviour
entirely to the leaf values.
-/

set_option maxHeartbeats 1000000

variable {T : Type}

/-- Failure kinds of the embedded operations.  `invalidPriority` models the
`AssertionError` raised by `assert priority > 0` in `update_priorities`
(the spec's `InvalidPriority`); `indexOutOfRange` models the
`AssertionError` of `assert 0 <= idx < self.size` (the spec's
`IndexOutOfRange`) as well as the `IndexError` raised by numpy fancy
indexing — including the dimensionality error raised when the
uninitialised 1-D empty backing array is indexed with `[indices, :]`;
`emptyBuffer` is the spec's recommended dedicated empty-buffer error,
which the code never raises. -/
inductive Err where
  | indexOutOfRange
  | invalidPriority
  | emptyBuffer
  deriving DecidableEq

/-- State of `ExperienceReplay.__init__`: `transitions` is the backing numpy
array viewed as its list of rows (`np.asarray([])`, i.e. `[]`, before the
first insert), `current_idx` is the write cursor, `size` the populated
count, `max_size` the capacity. -/
structure ExperienceReplay (T : Type) where
  transitions : List T
  current_idx : Nat
  size : Nat
  max_size : Nat
  deriving DecidableEq

def ExperienceReplay.new (T : Type) (max_size : Nat) : ExperienceReplay T :=
  { transitions := [], current_idx := 0, size := 0, max_size := max_size }

/-- `ExperienceReplay.add_transition`: on the first insert the backing array
is created as `max_size` copies of the new transition (`blank_buffer`);
then the cursor row is overwritten, `size` saturates at `max_size`
(`size = min(size + 1, max_size)`) and the cursor advances modulo
`max_size` (`current_idx = (current_idx + 1) % max_size`). -/
def ExperienceReplay.addTransition (buf : ExperienceReplay T) (t : T) : ExperienceReplay T :=
  let arr := if buf.size = 0 then List.replicate buf.max_size t else buf.transitions
  { buf with
    transitions := arr.set buf.current_idx t
    size := min (buf.size + 1) buf.max_size
    current_idx := (buf.current_idx + 1) % buf.max_size }

/-- A sequence of `add_transition` calls folded over a buffer. -/
def insertAll (buf : ExperienceReplay T) (ts : List T) : ExperienceReplay T :=
  ts.foldl ExperienceReplay.addTransition buf

/-- The row that slot `j` of the backing array holds after inserting the
sequence `ts` into a fresh buffer of capacity `C`: the latest insert whose
position in `ts` is congruent to `j` modulo `C`, or the very first insert
(the `blank_buffer` padding) when slot `j` was never overwritten. -/
def slotVal (C : Nat) (ts : List T) (j : Nat) : Option T :=
  if j < ts.length % C then ts[ts.length - ts.length % C + j]?
  else if C ≤ ts.length then ts[ts.length - ts.length % C - C + j]?
  else ts[0]?

/-- `ExperienceReplay.clone_buffer`: deep-copies the backing array of the
source and re-inserts all of its rows, in order, into a fresh
`UniformExperienceReplay` of capacity `maxsize` (a uniform buffer carries
exactly the base-class state). -/
def cloneBuffer (src : ExperienceReplay T) (maxsize : Nat) : ExperienceReplay T :=
  insertAll (ExperienceReplay.new T maxsize) src.transitions

/-- Documented contract of `np.random.choice(n, size=k, replace=False)`:
`k` distinct indices drawn from `[0, n)`, in the order drawn. -/
def npChoiceSpec (n k : Nat) (indices : List Nat) : Prop :=
  indices.length = k ∧ indices.Nodup ∧ ∀ i ∈ indices, i < n

/-- The clamp at the head of `UniformExperienceReplay.sample`:
`if batch_size > self.size: batch_size = self.size`. -/
def clampBatch (size batch_size : Nat) : Nat :=
  if batch_size > size then size else batch_size

/-- The tail of `UniformExperienceReplay.sample` after the
`np.random.choice` call, whose result is passed in as `indices`:
`return self._transitions[indices, :]`.  Fancy indexing of the
uninitialised 1-D empty array (`size == 0`, no insert yet) raises
`IndexError: too many indices` for every index list, including the empty
one; otherwise each index is resolved against the rows of the 2-D backing
array, out-of-range indices raising `IndexError`. -/
def uniformSampleRows (buf : ExperienceReplay T) (indices : List Nat) : Except Err (List T) :=
  if buf.transitions.isEmpty then Except.error Err.indexOutOfRange
  else indices.mapM fun i =>
    match buf.transitions[i]? with
    | some r => Except.ok r
    | none => Except.error Err.indexOutOfRange

/-- The `while st_capacity < max_size: st_capacity *= 2` loop of
`PrioritizedExperienceReplay.__init__`, starting from 1: the smallest
power of two that is at least `max_size`. -/
def stCapacityOf (max_size : Nat) : Nat := 2 ^ Nat.clog 2 max_size

/-- State of `PrioritizedExperienceReplay`: the underlying store plus the
two segment trees represented by their leaf arrays.  `segment_tree.py` is
not among the provided sources; the trees are modelled from the spec,
which pins the observable behaviour entirely to the leaves: unused
sum-tree leaves hold the combine identity 0, unused min-tree leaves hold
the combine identity +∞, modelled as `⊤ : WithTop ℝ`. -/
structure PrioritizedExperienceReplay (T : Type) where
  store : ExperienceReplay T
  alpha : ℝ
  beta : ℝ
  max_priority : ℝ
  st_capacity : Nat
  st_sum : Nat → ℝ
  st_min : Nat → WithTop ℝ

namespace PrioritizedExperienceReplay

/-- `PrioritizedExperienceReplay.__init__`: fresh store, `max_priority`
initialised to 1.0, both trees of capacity `stCapacityOf max_size` with
all leaves at their identity. -/
noncomputable def new (T : Type) (max_size : Nat) (a b : ℝ) : PrioritizedExperienceReplay T :=
  { store := ExperienceReplay.new T max_size
    alpha := a
    beta := b
    max_priority := 1
    st_capacity := stCapacityOf max_size
    st_sum := fun _ => 0
    st_min := fun _ => ⊤ }

/-- `PrioritizedExperienceReplay.add_transition`: remembers the cursor
(`idx = self._current_idx`), delegates to the store, then writes
`max_priority ** alpha` into leaf `idx` of both trees. -/
noncomputable def addTransition (buf : PrioritizedExperienceReplay T) (t : T) :
    PrioritizedExperienceReplay T :=
  let idx := buf.store.current_idx
  { buf with
    store := buf.store.addTransition t
    st_min := Function.update buf.st_min idx ((buf.max_priority ^ buf.alpha : ℝ) : WithTop ℝ)
    st_sum := Function.update buf.st_sum idx (buf.max_priority ^ buf.alpha) }

/-- Modelled from the spec: `SumSegmentTree.sum(lo, hi)` / `range_combine`,
the sum of the leaves in `[lo, hi]` inclusive (`segment_tree.py` is not
among the provided sources). -/
noncomputable def sumRange (buf : PrioritizedExperienceReplay T) (lo hi : Nat) : ℝ :=
  ∑ i ∈ Finset.Icc lo hi, buf.st_sum i

/-- Modelled from the spec: the whole-tree sum `SumSegmentTree.sum()`, the
combine of all `st_capacity` leaves. -/
noncomputable def sumAll (buf : PrioritizedExperienceReplay T) : ℝ :=
  ∑ i ∈ Finset.range buf.st_capacity, buf.st_sum i

/-- Modelled from the spec: the prefix sums of the sum tree, the sum of
the leaves `[0, i]` inclusive. -/
noncomputable def prefSum (buf : PrioritizedExperienceReplay T) (i : Nat) : ℝ :=
  ∑ j ∈ Finset.range (i + 1), buf.st_sum j

/-- Modelled from the spec: `SumSegmentTree.find_prefixsum_idx(target)`
(the spec's `find_prefix_index`), the smallest leaf index `i` such that
the sum of the leaves `[0, i]` exceeds `target` (with the junk value
`sInf ∅ = 0` when no such index exists — a case the spec rules out by
requiring `target < total_sum`). -/
noncomputable def findPrefIdx (buf : PrioritizedExperienceReplay T) (target : ℝ) : Nat :=
  sInf {i | target < buf.prefSum i}

/-- Modelled from the spec: the whole-tree min `MinSegmentTree.min()`, the
combine of all `st_capacity` leaves, `⊤` (+∞) being the identity. -/
noncomputable def minAll (buf : PrioritizedExperienceReplay T) : WithTop ℝ :=
  (Finset.range buf.st_capacity).inf buf.st_min

/-- The whole-tree min as the real number the Python code computes with:
`min()` returns a float, and in every reachable state with `size ≥ 1` the
min is finite. -/
noncomputable def minVal (buf : PrioritizedExperienceReplay T) : ℝ :=
  (buf.minAll).untop' 0

/-- `PrioritizedExperienceReplay.sample` together with
`_sample_proportionally`: clamps the batch size, splits the total mass
`self._st_sum.sum(0, self.size - 1)` into `batch_size` strata of equal
width, resolves one `np.random.uniform(0, 1)` draw `us i` per stratum
through the prefix-sum descent, and returns for each resolved index the
transition row, the normalized importance weight
`(p_sample * size) ** (-beta) / max_weight` with
`max_weight = (p_min * size) ** (-beta)`, and the index itself. -/
noncomputable def sample (buf : PrioritizedExperienceReplay T) (batch_size : Nat)
    (us : Nat → ℝ) : List (Option T × ℝ × Nat) :=
  let bs := clampBatch buf.store.size batch_size
  let p_total := buf.sumRange 0 (buf.store.size - 1)
  let w := p_total / (bs : ℝ)
  let indices := (List.range bs).map fun i => buf.findPrefIdx (us i * w + (i : ℝ) * w)
  let p_min := buf.minVal / buf.sumAll
  let max_weight := (p_min * (buf.store.size : ℝ)) ^ (-buf.beta)
  indices.map fun idx =>
    (buf.store.transitions[idx]?,
     ((buf.st_sum idx / buf.sumAll) * (buf.store.size : ℝ)) ^ (-buf.beta) / max_weight,
     idx)

/-- One applied pair of `update_priorities`: write `priority ** alpha` into
leaf `idx` of both trees and fold the priority into the running
`max_priority`. -/
noncomputable def applyPriority (buf : PrioritizedExperienceReplay T) (idx : Nat)
    (priority : ℝ) : PrioritizedExperienceReplay T :=
  { buf with
    st_sum := Function.update buf.st_sum idx (priority ^ buf.alpha)
    st_min := Function.update buf.st_min idx ((priority ^ buf.alpha : ℝ) : WithTop ℝ)
    max_priority := max buf.max_priority priority }

/-- `PrioritizedExperienceReplay.update_priorities`: walks the zipped
pairs in order; each pair is guarded by `assert priority > 0` and
`assert 0 <= idx < self.size` and, if both pass, applied.  A failing
assert aborts the walk, returning the state as mutated so far together
with the error raised. -/
noncomputable def updatePriorities (buf : PrioritizedExperienceReplay T) :
    List (Nat × ℝ) → PrioritizedExperienceReplay T × Option Err
  | [] => (buf, none)
  | (idx, priority) :: rest =>
    if 0 < priority then
      if idx < buf.store.size then (buf.applyPriority idx priority).updatePriorities rest
      else (buf, some Err.indexOutOfRange)
    else (buf, some Err.invalidPriority)

/-- `PrioritizedExperienceReplay.update_beta`. -/
noncomputable def updateBeta (buf : PrioritizedExperienceReplay T) (b : ℝ) :
    PrioritizedExperienceReplay T :=
  { buf with beta := b }

/-- Folding `applyPriority` over a pair list: the state `update_priorities`
reaches after applying exactly these pairs. -/
noncomputable def applyList (buf : PrioritizedExperienceReplay T) (pairs : List (Nat × ℝ)) :
    PrioritizedExperienceReplay T :=
  pairs.foldl (fun b pr => b.applyPriority pr.1 pr.2) buf

/-- Structural well-formedness of a prioritized buffer; established below
for every reachable state.  In particular: the write cursor is in range
(and equals `size` while the buffer is still filling), leaves of the sum
tree at indices `≥ size` hold the identity 0, leaves of the min tree
there hold the identity ⊤, both trees agree on the occupied leaves
`< size`, and the occupied leaf values are strictly positive. -/
def Inv (buf : PrioritizedExperienceReplay T) : Prop :=
  1 ≤ buf.store.max_size ∧
  buf.store.size ≤ buf.store.max_size ∧
  buf.store.max_size ≤ buf.st_capacity ∧
  buf.store.current_idx < buf.store.max_size ∧
  (buf.store.size < buf.store.max_size → buf.store.current_idx = buf.store.size) ∧
  (buf.store.size = 0 → buf.store.transitions = []) ∧
  (buf.store.size ≠ 0 → buf.store.transitions.length = buf.store.max_size) ∧
  0 < buf.max_priority ∧
  (∀ i, buf.store.size ≤ i → buf.st_sum i = 0) ∧
  (∀ i, buf.store.size ≤ i → buf.st_min i = ⊤) ∧
  (∀ i, i < buf.store.size → buf.st_min i = (buf.st_sum i : WithTop ℝ)) ∧
  (∀ i, i < buf.store.size → 0 < buf.st_sum i)

/-- The states a prioritized buffer can be driven to through its public
operations, starting from construction with a positive capacity. -/
inductive Reachable : PrioritizedExperienceReplay T → Prop where
  | init (max_size : Nat) (a b : ℝ) (h : 1 ≤ max_size) :
      Reachable (new T max_size a b)
  | add {buf : PrioritizedExperienceReplay T} (t : T) (h : Reachable buf) :
      Reachable (buf.addTransition t)
  | update {buf : PrioritizedExperienceReplay T} (pairs : List (Nat × ℝ)) (h : Reachable buf) :
      Reachable (buf.updatePriorities pairs).1
  | setBeta {buf : PrioritizedExperienceReplay T} (b : ℝ) (h : Reachable buf) :
      Reachable (buf.updateBeta b)

end PrioritizedExperienceReplay

/-- A concrete well-formed one-slot prioritized buffer used to instantiate
the sampling theorems on explicit inputs. -/
noncomputable def perOne : PrioritizedExperienceReplay Nat :=
  { store := { transitions := [0], current_idx := 0, size := 1, max_size := 1 }
    alpha := 1
    beta := 1
    max_priority := 1
    st_capacity := 1
    st_sum := fun i => if i = 0 then 1 else 0
    st_min := fun i => if i = 0 then ((1 : ℝ) : WithTop ℝ) else ⊤ }

/-- A concrete prioritized buffer of capacity 2 holding two transitions,
reached by two inserts from a fresh buffer with `alpha = beta = 1`. -/
noncomputable def perTwo : PrioritizedExperienceReplay Nat :=
  ((PrioritizedExperienceReplay.new Nat 2 1 1).addTransition 7).addTransition 8

theorem insertAll_nil (buf : ExperienceReplay T) : insertAll buf [] = buf := rfl

theorem insertAll_append_one (buf : ExperienceReplay T) (ts : List T) (t : T) :
    insertAll buf (ts ++ [t]) = (insertAll buf ts).addTransition t := by
  simp [insertAll, List.foldl_append]

theorem slotVal_single (C : Nat) (hC : 1 ≤ C) (t : T) (j : Nat) (hj : j < C) :
    slotVal C [t] j = some t := by
  unfold slotVal
  rcases eq_or_ne C 1 with h1 | h1
  · subst h1
    have hj0 : j = 0 := by omega
    subst hj0
    norm_num
  · have h2 : 2 ≤ C := by omega
    have hm : 1 % C = 1 := Nat.mod_eq_of_lt (by omega)
    simp only [List.length_singleton, hm]
    rcases eq_or_ne j 0 with hj0 | hj0
    · subst hj0; norm_num
    · rw [if_neg (by omega), if_neg (by omega)]
      rfl

theorem slotVal_append (C : Nat) (hC : 1 ≤ C) (ts : List T) (t : T) (hts : ts ≠ [])
    (j : Nat) (hj : j < C) :
    slotVal C (ts ++ [t]) j =
      if j = ts.length % C then some t else slotVal C ts j := by
  have hn : 1 ≤ ts.length := List.length_pos.mpr hts
  have hr : ts.length % C < C := Nat.mod_lt _ (by omega)
  have hrn : ts.length % C ≤ ts.length := Nat.mod_le ts.length C
  have hlen : (ts ++ [t]).length = ts.length + 1 := by simp
  have hmod : (ts.length + 1) % C = (ts.length % C + 1) % C :=
    (Nat.mod_add_mod ts.length C 1).symm
  unfold slotVal
  rw [hlen]
  rcases eq_or_ne (ts.length % C + 1) C with hwrap | hwrap
  · -- cursor wraps: ts.length % C = C - 1, (ts.length + 1) % C = 0
    have hr0 : (ts.length + 1) % C = 0 := by rw [hmod, hwrap, Nat.mod_self]
    have hCn1 : C ≤ ts.length + 1 := by omega
    rw [hr0]
    rcases eq_or_ne j (ts.length % C) with hjr | hjr
    · rw [if_pos hjr, if_neg (by omega), if_pos hCn1]
      have hidx : ts.length + 1 - 0 - C + j = ts.length := by omega
      rw [hidx, List.getElem?_concat_length]
    · have hjlt : j < ts.length % C := by omega
      rw [if_neg hjr, if_neg (by omega), if_pos hCn1, if_pos hjlt]
      have hidx : ts.length + 1 - 0 - C + j = ts.length - ts.length % C + j := by omega
      rw [hidx, List.getElem?_append_left (by omega)]
  · -- no wrap: (ts.length + 1) % C = ts.length % C + 1
    have hr1 : (ts.length + 1) % C = ts.length % C + 1 := by
      rw [hmod]; exact Nat.mod_eq_of_lt (by omega)
    rw [hr1]
    rcases eq_or_ne j (ts.length % C) with hjr | hjr
    · rw [if_pos hjr, if_pos (by omega)]
      have hidx : ts.length + 1 - (ts.length % C + 1) + j = ts.length := by omega
      rw [hidx, List.getElem?_concat_length]
    · rw [if_neg hjr]
      rcases lt_or_gt_of_ne hjr with hjlt | hjgt
      · rw [if_pos (by omega), if_pos hjlt]
        have hidx : ts.length + 1 - (ts.length % C + 1) + j
            = ts.length - ts.length % C + j := by omega
        rw [hidx, List.getElem?_append_left (by omega)]
      · rw [if_neg (by omega)]
        by_cases hCn : C ≤ ts.length
        · rw [if_pos (by omega), if_neg (by omega), if_pos hCn]
          have hidx : ts.length + 1 - (ts.length % C + 1) - C + j
              = ts.length - ts.length % C - C + j := by omega
          rw [hidx, List.getElem?_append_left (by omega)]
        · have hrn' : ts.length % C = ts.length := Nat.mod_eq_of_lt (by omega)
          rw [if_neg (by omega), if_neg (by omega), if_neg hCn]
          exact List.getElem?_append_left (by omega)

theorem insertAll_state (C : Nat) (hC : 1 ≤ C) (ts : List T) (hts : ts ≠ []) :
    (insertAll (ExperienceReplay.new T C) ts).max_size = C ∧
    (insertAll (ExperienceReplay.new T C) ts).size = min ts.length C ∧
    (insertAll (ExperienceReplay.new T C) ts).current_idx = ts.length % C ∧
    (insertAll (ExperienceReplay.new T C) ts).transitions.length = C ∧
    ∀ j, j < C → (insertAll (ExperienceReplay.new T C) ts).transitions[j]? = slotVal C ts j := by
  induction ts using List.reverseRecOn with
  | nil => exact absurd rfl hts
  | append_singleton ts t ih =>
    rcases eq_or_ne ts [] with hts0 | hts0
    · subst hts0
      simp only [List.nil_append]
      refine ⟨rfl, ?_, ?_, ?_, ?_⟩
      · show min (0 + 1) C = min 1 C
        rfl
      · show (0 + 1) % C = 1 % C
        rfl
      · show ((List.replicate C t).set 0 t).length = C
        simp
      · intro j hj
        rw [slotVal_single C hC t j hj]
        show ((List.replicate C t).set 0 t)[j]? = some t
        rcases eq_or_ne j 0 with hj0 | hj0
        · subst hj0
          exact List.getElem?_set_self (by simpa)
        · rw [List.getElem?_set_ne (Ne.symm hj0), List.getElem?_replicate_of_lt hj]
    · obtain ⟨ih1, ih2, ih3, ih4, ih5⟩ := ih hts0
      have hn : 1 ≤ ts.length := List.length_pos.mpr hts0
      rw [insertAll_append_one]
      have hlen : (ts ++ [t]).length = ts.length + 1 := by simp
      rw [hlen]
      set s := insertAll (ExperienceReplay.new T C) ts with hsdef
      have hsize0 : s.size ≠ 0 := by omega
      unfold ExperienceReplay.addTransition
      simp only [if_neg hsize0]
      refine ⟨ih1, ?_, ?_, ?_, ?_⟩
      · show min (s.size + 1) s.max_size = min (ts.length + 1) C
        rw [ih1, ih2]; omega
      · show (s.current_idx + 1) % s.max_size = (ts.length + 1) % C
        rw [ih1, ih3, Nat.mod_add_mod]
      · show (s.transitions.set s.current_idx t).length = C
        rw [List.length_set, ih4]
      · intro j hj
        show (s.transitions.set s.current_idx t)[j]? = slotVal C (ts ++ [t]) j
        rw [slotVal_append C hC ts t hts0 j hj, ih3, List.getElem?_set]
        rcases eq_or_ne (ts.length % C) j with hjr | hjr
        · rw [if_pos hjr, if_pos (by rw [ih4]; omega), if_pos hjr.symm]
        · rw [if_neg hjr, if_neg (Ne.symm hjr)]
          exact ih5 j hj

theorem slotVal_fifo (C : Nat) (hC : 1 ≤ C) (ts : List T) (hn : C ≤ ts.length)
    (k : Nat) (hk : k < C) :
    slotVal C ts ((ts.length + k) % C) = ts[ts.length - C + k]? := by
  have hr : ts.length % C < C := Nat.mod_lt _ (by omega)
  have hrn : ts.length % C ≤ ts.length := Nat.mod_le ts.length C
  have hq : 1 ≤ ts.length / C := (Nat.le_div_iff_mul_le (by omega)).mpr (by omega)
  have h2 : C ≤ C * (ts.length / C) := by
    calc C = C * 1 := (mul_one C).symm
    _ ≤ C * (ts.length / C) := Nat.mul_le_mul_left C hq
  have h3 : C * (ts.length / C) + ts.length % C = ts.length := Nat.div_add_mod ts.length C
  have hCr : C ≤ ts.length - ts.length % C := by omega
  have hmod : (ts.length + k) % C = (ts.length % C + k) % C :=
    (Nat.mod_add_mod ts.length C k).symm
  rcases Nat.lt_or_ge (ts.length % C + k) C with hlt | hge
  · have hj : (ts.length + k) % C = ts.length % C + k := by
      rw [hmod]; exact Nat.mod_eq_of_lt hlt
    rw [hj]
    unfold slotVal
    rw [if_neg (by omega), if_pos (by omega)]
    have hidx : ts.length - ts.length % C - C + (ts.length % C + k)
        = ts.length - C + k := by omega
    rw [hidx]
  · have hj : (ts.length + k) % C = ts.length % C + k - C := by
      rw [hmod, Nat.mod_eq_sub_mod hge]
      exact Nat.mod_eq_of_lt (by omega)
    rw [hj]
    unfold slotVal
    rw [if_pos (by omega)]
    have hidx : ts.length - ts.length % C + (ts.length % C + k - C)
        = ts.length - C + k := by omega
    rw [hidx]

/-- C1: for a buffer of capacity `C ≥ 1` and any insert sequence `ts` with
`ts.length ≥ C`: every insert sets `size = min(size + 1, max_size)` and
`current_idx = (current_idx + 1) % max_size`; insertion never fails (after
every insert the backing array has exactly `C` rows and the cursor is in
range, so the numpy row write is always in bounds); afterwards `size = C`
and reading the `C` slots cyclically from the final cursor yields exactly
the last `C` inserted transitions in FIFO order (oldest surviving
first). -/
theorem c1_store_fifo_ring (C : Nat) (ts : List T) (hC : 1 ≤ C) (hn : C ≤ ts.length) :
    (∀ (b : ExperienceReplay T) (t : T),
      (b.addTransition t).size = min (b.size + 1) b.max_size ∧
      (b.addTransition t).current_idx = (b.current_idx + 1) % b.max_size) ∧
    (∀ k, 1 ≤ k → k ≤ ts.length →
      (insertAll (ExperienceReplay.new T C) (ts.take k)).transitions.length = C ∧
      (insertAll (ExperienceReplay.new T C) (ts.take k)).current_idx < C) ∧
    (insertAll (ExperienceReplay.new T C) ts).size = C ∧
    ∀ k, k < C →
      (insertAll (ExperienceReplay.new T C) ts).transitions[(ts.length + k) % C]?
        = ts[ts.length - C + k]? := by
  have hts : ts ≠ [] := by
    intro h
    rw [h] at hn
    simp at hn
    omega
  obtain ⟨h1, h2, h3, h4, h5⟩ := insertAll_state C hC ts hts
  refine ⟨fun b t => ⟨rfl, rfl⟩, ?_, ?_, ?_⟩
  · intro k hk1 hk2
    have htk : (ts.take k).length = k := by
      rw [List.length_take]; omega
    have htkne : ts.take k ≠ [] := by
      intro h
      rw [h] at htk
      simp at htk
      omega
    obtain ⟨_, _, g3, g4, _⟩ := insertAll_state C hC (ts.take k) htkne
    exact ⟨g4, by rw [g3]; exact Nat.mod_lt _ (by omega)⟩
  · rw [h2]; omega
  · intro k hk
    rw [h5 _ (Nat.mod_lt _ (by omega))]
    exact slotVal_fifo C hC ts hn k hk

/-- Witness for C1: capacity 2, inserts `[10, 20, 30]`. -/
theorem c1_store_fifo_ring_witness :
    1 ≤ 2 ∧ 2 ≤ ([10, 20, 30] : List Nat).length ∧
    ((∀ (b : ExperienceReplay Nat) (t : Nat),
        (b.addTransition t).size = min (b.size + 1) b.max_size ∧
        (b.addTransition t).current_idx = (b.current_idx + 1) % b.max_size) ∧
     (∀ k, 1 ≤ k → k ≤ ([10, 20, 30] : List Nat).length →
        (insertAll (ExperienceReplay.new Nat 2)
          (([10, 20, 30] : List Nat).take k)).transitions.length = 2 ∧
        (insertAll (ExperienceReplay.new Nat 2)
          (([10, 20, 30] : List Nat).take k)).current_idx < 2) ∧
     (insertAll (ExperienceReplay.new Nat 2) [10, 20, 30]).size = 2 ∧
     ∀ k, k < 2 →
       (insertAll (ExperienceReplay.new Nat 2)
           [10, 20, 30]).transitions[(([10, 20, 30] : List Nat).length + k) % 2]?
         = ([10, 20, 30] : List Nat)[([10, 20, 30] : List Nat).length - 2 + k]?) :=
  ⟨by norm_num, by norm_num,
   c1_store_fifo_ring 2 [10, 20, 30] (by norm_num) (by norm_num)⟩

/-- C10: after the first insert every backing slot holds a copy of the
first transition; while the buffer is filling, every backing index in
`[size, max_size)` still reads that first transition without error; and
`clone_buffer` of a source that has seen at least one insert re-inserts
all `max_size` backing rows, so the clone's size is
`min(source.max_size, maxsize)` even when `source.size < source.max_size`. -/
theorem c10_padding_and_clone (C maxsize : Nat) (hC : 1 ≤ C) (hM : 1 ≤ maxsize)
    (ts : List T) (hts : ts ≠ []) :
    (∀ (t : T) j, j < C →
      ((ExperienceReplay.new T C).addTransition t).transitions[j]? = some t) ∧
    (∀ j, (insertAll (ExperienceReplay.new T C) ts).size ≤ j → j < C →
      (insertAll (ExperienceReplay.new T C) ts).transitions[j]? = ts[0]?) ∧
    (cloneBuffer (insertAll (ExperienceReplay.new T C) ts) maxsize).size = min C maxsize := by
  obtain ⟨h1, h2, h3, h4, h5⟩ := insertAll_state C hC ts hts
  have hn : 1 ≤ ts.length := List.length_pos.mpr hts
  refine ⟨?_, ?_, ?_⟩
  · intro t j hj
    obtain ⟨_, _, _, _, g5⟩ := insertAll_state C hC [t] (by simp)
    have : insertAll (ExperienceReplay.new T C) [t]
        = (ExperienceReplay.new T C).addTransition t := rfl
    rw [← this, g5 j hj, slotVal_single C hC t j hj]
  · intro j hsz hj
    rw [h2] at hsz
    have hnC : ts.length < C := by omega
    have hjn : ts.length ≤ j := by omega
    rw [h5 j hj]
    unfold slotVal
    have hr : ts.length % C = ts.length := Nat.mod_eq_of_lt hnC
    rw [hr, if_neg (by omega), if_neg (by omega)]
  · have htrne : (insertAll (ExperienceReplay.new T C) ts).transitions ≠ [] := by
      intro h
      rw [h] at h4
      simp at h4
      omega
    obtain ⟨_, g2, _, _, _⟩ :=
      insertAll_state maxsize hM
        (insertAll (ExperienceReplay.new T C) ts).transitions htrne
    unfold cloneBuffer
    rw [g2, h4]

/-- Witness for C10: capacity 3, clone capacity 2, a single insert `[5]`. -/
theorem c10_padding_and_clone_witness :
    1 ≤ 3 ∧ 1 ≤ 2 ∧ ([5] : List Nat) ≠ [] ∧
    ((∀ (t : Nat) j, j < 3 →
        ((ExperienceReplay.new Nat 3).addTransition t).transitions[j]? = some t) ∧
     (∀ j, (insertAll (ExperienceReplay.new Nat 3) [5]).size ≤ j → j < 3 →
        (insertAll (ExperienceReplay.new Nat 3) [5]).transitions[j]? = ([5] : List Nat)[0]?) ∧
     (cloneBuffer (insertAll (ExperienceReplay.new Nat 3) [5]) 2).size = min 3 2) :=
  ⟨by norm_num, by norm_num, by simp,
   c10_padding_and_clone 3 2 (by norm_num) (by norm_num) [5] (by simp)⟩

theorem mapM_except_ok {α β : Type} (f : α → Except Err β) (l : List α)
    (h : ∀ a ∈ l, ∃ b, f a = Except.ok b) :
    ∃ res, l.mapM f = Except.ok res ∧ res.length = l.length ∧
      ∀ k : Nat, res[k]? = (l[k]?).bind fun a => (f a).toOption := by
  induction l with
  | nil => exact ⟨[], rfl, by simp, by simp⟩
  | cons a l ih =>
    obtain ⟨b, hb⟩ := h a (by simp)
    obtain ⟨res, hres, hlen, hget⟩ := ih fun x hx => h x (by simp [hx])
    refine ⟨b :: res, ?_, by simp [hlen], ?_⟩
    · simp only [List.mapM_cons, hb, hres]
      rfl
    · intro k
      cases k with
      | zero => simp [hb, Except.toOption]
      | succ k => simpa using hget k

/-- C7: on a nonempty uniform buffer, `sample` first clamps the requested
batch size to `min(batch_size, size)`; given any draw satisfying the
`np.random.choice(size, clamped, replace=False)` contract, the call
succeeds and returns exactly `min(batch_size, size)` transitions, the
drawn slot indices are pairwise distinct and all in `[0, size)`, and the
`k`-th returned row is the backing row at the `k`-th drawn index (the
order drawn). -/
theorem c7_uniform_sample_clamp_distinct (buf : ExperienceReplay T) (batch_size : Nat)
    (indices : List Nat) (h1 : 1 ≤ buf.size) (h2 : buf.size ≤ buf.transitions.length)
    (hc : npChoiceSpec buf.size (clampBatch buf.size batch_size) indices) :
    clampBatch buf.size batch_size = min batch_size buf.size ∧
    ∃ res, uniformSampleRows buf indices = Except.ok res ∧
      res.length = min batch_size buf.size ∧
      indices.Nodup ∧ (∀ i ∈ indices, i < buf.size) ∧
      ∀ k : Nat, res[k]? = (indices[k]?).bind fun i => buf.transitions[i]? := by
  obtain ⟨hclen, hcnd, hclt⟩ := hc
  have hclamp : clampBatch buf.size batch_size = min batch_size buf.size := by
    unfold clampBatch
    split <;> omega
  have hne : buf.transitions.isEmpty = false := by
    rw [List.isEmpty_eq_false]
    intro h
    rw [h] at h2
    simp at h2
    omega
  have hrows : ∀ i ∈ indices, ∃ b,
      (match buf.transitions[i]? with
       | some r => Except.ok r
       | none => Except.error Err.indexOutOfRange) = Except.ok b := by
    intro i hi
    have hilt : i < buf.transitions.length := lt_of_lt_of_le (hclt i hi) h2
    refine ⟨buf.transitions[i], ?_⟩
    rw [List.getElem?_eq_getElem hilt]
  obtain ⟨res, hres, hlen, hget⟩ := mapM_except_ok _ indices hrows
  refine ⟨hclamp, res, ?_, by rw [hlen, hclen, hclamp], hcnd, hclt, ?_⟩
  · unfold uniformSampleRows
    rw [hne]
    simpa using hres
  · intro k
    rw [hget k]
    cases hk : indices[k]? with
    | none => rfl
    | some i =>
      have hi : i ∈ indices := List.getElem?_mem hk
      have hilt : i < buf.transitions.length := lt_of_lt_of_le (hclt i hi) h2
      simp only [Option.some_bind]
      rw [List.getElem?_eq_getElem hilt]
      rfl

/-- Witness for C7: buffer of capacity 3 after two inserts, batch size 7
(clamped to 2), draw `[1, 0]`. -/
theorem c7_uniform_sample_clamp_distinct_witness :
    1 ≤ (insertAll (ExperienceReplay.new Nat 3) [4, 5]).size ∧
    (insertAll (ExperienceReplay.new Nat 3) [4, 5]).size
      ≤ (insertAll (ExperienceReplay.new Nat 3) [4, 5]).transitions.length ∧
    npChoiceSpec (insertAll (ExperienceReplay.new Nat 3) [4, 5]).size
      (clampBatch (insertAll (ExperienceReplay.new Nat 3) [4, 5]).size 7) [1, 0] ∧
    (clampBatch (insertAll (ExperienceReplay.new Nat 3) [4, 5]).size 7
        = min 7 (insertAll (ExperienceReplay.new Nat 3) [4, 5]).size ∧
     ∃ res, uniformSampleRows (insertAll (ExperienceReplay.new Nat 3) [4, 5]) [1, 0]
          = Except.ok res ∧
        res.length = min 7 (insertAll (ExperienceReplay.new Nat 3) [4, 5]).size ∧
        ([1, 0] : List Nat).Nodup ∧
        (∀ i ∈ ([1, 0] : List Nat),
          i < (insertAll (ExperienceReplay.new Nat 3) [4, 5]).size) ∧
        ∀ k : Nat, res[k]? = (([1, 0] : List Nat)[k]?).bind
          fun i => (insertAll (ExperienceReplay.new Nat 3) [4, 5]).transitions[i]?) :=
  ⟨by decide, by decide, by unfold npChoiceSpec clampBatch; decide,
   c7_uniform_sample_clamp_distinct (insertAll (ExperienceReplay.new Nat 3) [4, 5]) 7 [1, 0]
     (by decide) (by decide) (by unfold npChoiceSpec clampBatch; decide)⟩

/-- C8 counterexample: on a freshly constructed buffer (`size = 0`) with a
positive requested batch size, the clamp makes `np.random.choice(0, 0)`
return the empty draw, and the indexing step then fails with a plain
`IndexError` (the 1-D empty backing array cannot be indexed with
`[indices, :]`) — not with the spec's dedicated `EmptyBuffer` error — and
no empty result is returned either. -/
theorem c8_empty_sample_cex :
    npChoiceSpec (ExperienceReplay.new Nat 5).size
      (clampBatch (ExperienceReplay.new Nat 5).size 3) [] ∧
    uniformSampleRows (ExperienceReplay.new Nat 5) [] = Except.error Err.indexOutOfRange ∧
    uniformSampleRows (ExperienceReplay.new Nat 5) [] ≠ Except.error Err.emptyBuffer ∧
    ∀ res : List Nat, uniformSampleRows (ExperienceReplay.new Nat 5) [] ≠ Except.ok res := by
  refine ⟨by unfold npChoiceSpec clampBatch; decide, rfl, ?_, ?_⟩
  · intro h
    simp [uniformSampleRows, ExperienceReplay.new] at h
  · intro res h
    simp [uniformSampleRows, ExperienceReplay.new] at h

/-- C8 amended: sampling a uniform buffer with `size == 0` (equivalently,
with the uninitialised empty backing array) fails — for every index list
the numpy draw could produce and in fact for any requested batch size —
but with a generic `IndexError` from the fancy indexing of the 1-D empty
array, not with a dedicated `EmptyBuffer` error, and no empty result is
returned. -/
theorem c8_empty_sample_amended (buf : ExperienceReplay T) (indices : List Nat)
    (_h0 : buf.size = 0) (he : buf.transitions = []) :
    uniformSampleRows buf indices = Except.error Err.indexOutOfRange := by
  unfold uniformSampleRows
  rw [he]
  rfl

/-- Witness for the amended C8: fresh buffer of capacity 5, draw `[]`. -/
theorem c8_empty_sample_amended_witness :
    (ExperienceReplay.new Nat 5).size = 0 ∧
    (ExperienceReplay.new Nat 5).transitions = [] ∧
    uniformSampleRows (ExperienceReplay.new Nat 5) [] = Except.error Err.indexOutOfRange :=
  ⟨rfl, rfl, c8_empty_sample_amended (ExperienceReplay.new Nat 5) [] rfl rfl⟩

namespace PrioritizedExperienceReplay

theorem applyPriority_store (buf : PrioritizedExperienceReplay T) (idx : Nat) (p : ℝ) :
    (buf.applyPriority idx p).store = buf.store := rfl

theorem applyList_cons (buf : PrioritizedExperienceReplay T) (pr : Nat × ℝ)
    (rest : List (Nat × ℝ)) :
    buf.applyList (pr :: rest) = (buf.applyPriority pr.1 pr.2).applyList rest := rfl

theorem updatePriorities_valid_app (buf : PrioritizedExperienceReplay T)
    (good rest : List (Nat × ℝ))
    (hg : ∀ pr ∈ good, 0 < pr.2 ∧ pr.1 < buf.store.size) :
    buf.updatePriorities (good ++ rest) = (buf.applyList good).updatePriorities rest := by
  induction good generalizing buf with
  | nil => rfl
  | cons pr good ih =>
    obtain ⟨i, p⟩ := pr
    obtain ⟨hp, hi⟩ := hg (i, p) (by simp)
    rw [List.cons_append]
    show (if 0 < p then
        if i < buf.store.size then (buf.applyPriority i p).updatePriorities (good ++ rest)
        else (buf, some Err.indexOutOfRange)
      else (buf, some Err.invalidPriority))
      = (buf.applyList ((i, p) :: good)).updatePriorities rest
    rw [if_pos hp, if_pos hi, applyList_cons]
    exact ih (buf.applyPriority i p) fun q hq => hg q (by simp [hq])

theorem updatePriorities_max_mono (buf : PrioritizedExperienceReplay T)
    (pairs : List (Nat × ℝ)) :
    buf.max_priority ≤ (buf.updatePriorities pairs).1.max_priority := by
  induction pairs generalizing buf with
  | nil => exact le_refl _
  | cons pr rest ih =>
    obtain ⟨i, p⟩ := pr
    show buf.max_priority ≤ (if 0 < p then
        if i < buf.store.size then (buf.applyPriority i p).updatePriorities rest
        else (buf, some Err.indexOutOfRange)
      else (buf, some Err.invalidPriority)).1.max_priority
    split
    · split
      · exact le_trans (le_max_left buf.max_priority p) (ih (buf.applyPriority i p))
      · exact le_refl _
    · exact le_refl _

theorem updatePriorities_ok_max (buf : PrioritizedExperienceReplay T)
    (pairs : List (Nat × ℝ)) (h : (buf.updatePriorities pairs).2 = none) :
    ((buf.updatePriorities pairs).1.max_priority = buf.max_priority ∨
      ∃ pr ∈ pairs, (buf.updatePriorities pairs).1.max_priority = pr.2) ∧
    ∀ pr ∈ pairs, pr.2 ≤ (buf.updatePriorities pairs).1.max_priority := by
  induction pairs generalizing buf with
  | nil => exact ⟨Or.inl rfl, by simp⟩
  | cons pr rest ih =>
    obtain ⟨i, p⟩ := pr
    have hunfold : buf.updatePriorities ((i, p) :: rest) = (if 0 < p then
        if i < buf.store.size then (buf.applyPriority i p).updatePriorities rest
        else (buf, some Err.indexOutOfRange)
      else (buf, some Err.invalidPriority)) := rfl
    by_cases hp : 0 < p
    · by_cases hi : i < buf.store.size
      · rw [hunfold, if_pos hp, if_pos hi] at h ⊢
        obtain ⟨hor, hall⟩ := ih (buf.applyPriority i p) h
        constructor
        · rcases hor with heq | ⟨q, hq, heq⟩
          · rcases max_choice buf.max_priority p with hm | hm
            · exact Or.inl (by rw [heq]; exact hm)
            · exact Or.inr ⟨(i, p), by simp, by rw [heq]; exact hm⟩
          · exact Or.inr ⟨q, by simp [hq], heq⟩
        · intro q hq
          rcases List.mem_cons.mp hq with rfl | hq'
          · exact le_trans (le_max_right buf.max_priority p)
              (updatePriorities_max_mono (buf.applyPriority i p) rest)
          · exact hall q hq'
      · rw [hunfold, if_pos hp, if_neg hi] at h
        exact absurd h (by simp)
    · rw [hunfold, if_neg hp] at h
      exact absurd h (by simp)

end PrioritizedExperienceReplay

/-- C2 counterexample: on the two-slot buffer `perTwo`, the call
`update_priorities([0, 1], [5, 0])` fails with `InvalidPriority` at the
second pair, but the state is not left unchanged: the first pair has
already been applied, so the sum-tree leaf 0 has moved from 1 to 5 and
`max_priority` from 1 to 5. -/
theorem c2_update_priorities_cex :
    (perTwo.updatePriorities [(0, 5), (1, 0)]).2 = some Err.invalidPriority ∧
    (perTwo.updatePriorities [(0, 5), (1, 0)]).1.st_sum 0 = 5 ∧
    perTwo.st_sum 0 = 1 ∧
    (perTwo.updatePriorities [(0, 5), (1, 0)]).1.st_sum 0 ≠ perTwo.st_sum 0 ∧
    (perTwo.updatePriorities [(0, 5), (1, 0)]).1.max_priority = 5 ∧
    perTwo.max_priority = 1 := by
  have hsize : perTwo.store.size = 2 := rfl
  have halpha : perTwo.alpha = 1 := rfl
  have hmax : perTwo.max_priority = 1 := rfl
  have hsum0 : perTwo.st_sum 0 = 1 := by
    show Function.update (Function.update (fun _ => (0 : ℝ)) 0
      ((1 : ℝ) ^ (1 : ℝ))) 1 ((1 : ℝ) ^ (1 : ℝ)) 0 = 1
    rw [Function.update_noteq (by norm_num), Function.update_same, Real.one_rpow]
  have hstep : perTwo.updatePriorities [(0, 5), (1, 0)]
      = (perTwo.applyPriority 0 5, some Err.invalidPriority) := by
    show (if (0 : ℝ) < 5 then
        if 0 < perTwo.store.size then
          (perTwo.applyPriority 0 5).updatePriorities [(1, 0)]
        else (perTwo, some Err.indexOutOfRange)
      else (perTwo, some Err.invalidPriority)) = _
    rw [if_pos (by norm_num), if_pos (by rw [hsize]; norm_num)]
    show (if (0 : ℝ) < 0 then _ else ((perTwo.applyPriority 0 5), some Err.invalidPriority)) = _
    rw [if_neg (by norm_num)]
  rw [hstep]
  have happ : (perTwo.applyPriority 0 5).st_sum 0 = 5 := by
    show Function.update perTwo.st_sum 0 ((5 : ℝ) ^ perTwo.alpha) 0 = 5
    rw [Function.update_same, halpha, Real.rpow_one]
  refine ⟨rfl, happ, hsum0, ?_, ?_, hmax⟩
  · rw [happ, hsum0]; norm_num
  · show max perTwo.max_priority 5 = 5
    rw [hmax]
    norm_num

/-- C2 amended: a `update_priorities` call containing a non-positive
priority fails with `InvalidPriority` at the first offending pair and
applies nothing from that pair on, but every pair preceding the first
offending one has already been applied to both trees and to
`max_priority`; only when the offending pair comes first is the buffer
state left entirely unchanged. -/
theorem c2_update_priorities_amended (buf : PrioritizedExperienceReplay T)
    (good rest : List (Nat × ℝ)) (i : Nat) (p : ℝ)
    (hg : ∀ pr ∈ good, 0 < pr.2 ∧ pr.1 < buf.store.size) (hp : p ≤ 0) :
    buf.updatePriorities (good ++ (i, p) :: rest)
      = (buf.applyList good, some Err.invalidPriority) ∧
    (buf.updatePriorities ((i, p) :: rest)).1 = buf := by
  constructor
  · rw [PrioritizedExperienceReplay.updatePriorities_valid_app buf good ((i, p) :: rest) hg]
    show (if 0 < p then _ else ((buf.applyList good), some Err.invalidPriority)) = _
    rw [if_neg (not_lt.mpr hp)]
  · show (if 0 < p then _ else (buf, some Err.invalidPriority)).1 = buf
    rw [if_neg (not_lt.mpr hp)]

/-- Witness for the amended C2: `perTwo`, one valid pair `(0, 5)` followed
by the offending pair `(1, 0)`. -/
theorem c2_update_priorities_amended_witness :
    (∀ pr ∈ ([(0, 5)] : List (Nat × ℝ)), 0 < pr.2 ∧ pr.1 < perTwo.store.size) ∧
    (0 : ℝ) ≤ 0 ∧
    (perTwo.updatePriorities ([(0, 5)] ++ (1, (0 : ℝ)) :: [])
        = (perTwo.applyList [(0, 5)], some Err.invalidPriority) ∧
     (perTwo.updatePriorities ((1, (0 : ℝ)) :: [])).1 = perTwo) :=
  ⟨by
    intro pr hpr
    have hsize : perTwo.store.size = 2 := rfl
    rcases List.mem_singleton.mp hpr with rfl
    exact ⟨by norm_num, by rw [hsize]; norm_num⟩,
   le_refl 0,
   c2_update_priorities_amended perTwo [(0, 5)] [] 1 0
     (by
       intro pr hpr
       have hsize : perTwo.store.size = 2 := rfl
       rcases List.mem_singleton.mp hpr with rfl
       exact ⟨by norm_num, by rw [hsize]; norm_num⟩)
     (le_refl 0)⟩

/-- C3: every prioritized insert writes exactly one leaf in the sum tree
and one leaf in the min tree — both trees change exactly at the slot
index the store writes the transition to, namely the cursor value before
the insert — and both leaves are set to `max_priority ** alpha`. -/
theorem c3_insert_tree_alignment (buf : PrioritizedExperienceReplay T) (t : T)
    (h : buf.Inv) :
    (buf.addTransition t).st_sum
      = Function.update buf.st_sum buf.store.current_idx (buf.max_priority ^ buf.alpha) ∧
    (buf.addTransition t).st_min
      = Function.update buf.st_min buf.store.current_idx
          ((buf.max_priority ^ buf.alpha : ℝ) : WithTop ℝ) ∧
    (buf.addTransition t).store.transitions[buf.store.current_idx]? = some t := by
  obtain ⟨h1, h2, h3, h4, h5, h6, h7, _⟩ := h
  refine ⟨rfl, rfl, ?_⟩
  show ((if buf.store.size = 0 then List.replicate buf.store.max_size t
      else buf.store.transitions).set buf.store.current_idx t)[buf.store.current_idx]?
    = some t
  have hlen : (if buf.store.size = 0 then List.replicate buf.store.max_size t
      else buf.store.transitions).length = buf.store.max_size := by
    split
    · simp
    · exact h7 (by assumption)
  exact List.getElem?_set_self (by rw [hlen]; exact h4)

theorem perOne_inv : perOne.Inv := by
  unfold PrioritizedExperienceReplay.Inv
  refine ⟨by norm_num [perOne], by norm_num [perOne], by norm_num [perOne],
    by norm_num [perOne], by norm_num [perOne], by norm_num [perOne],
    by norm_num [perOne], by norm_num [perOne], ?_, ?_, ?_, ?_⟩
  · intro i hi
    simp only [perOne] at hi ⊢
    rw [if_neg (by omega)]
  · intro i hi
    simp only [perOne] at hi ⊢
    rw [if_neg (by omega)]
  · intro i hi
    simp only [perOne] at hi ⊢
    have hi0 : i = 0 := by omega
    subst hi0
    norm_num
  · intro i hi
    simp only [perOne] at hi ⊢
    have hi0 : i = 0 := by omega
    subst hi0
    norm_num

/-- Witness for C3: the one-slot buffer `perOne`, inserting transition 3. -/
theorem c3_insert_tree_alignment_witness :
    perOne.Inv ∧
    ((perOne.addTransition 3).st_sum
        = Function.update perOne.st_sum perOne.store.current_idx
            (perOne.max_priority ^ perOne.alpha) ∧
     (perOne.addTransition 3).st_min
        = Function.update perOne.st_min perOne.store.current_idx
            ((perOne.max_priority ^ perOne.alpha : ℝ) : WithTop ℝ) ∧
     (perOne.addTransition 3).store.transitions[perOne.store.current_idx]? = some 3) :=
  ⟨perOne_inv, c3_insert_tree_alignment perOne 3 perOne_inv⟩

/-- C6: `max_priority` is monotonically non-decreasing across the
buffer's operations: an insert leaves it unchanged, `update_priorities`
never lowers it (even when the call aborts part-way), and a successful
`update_priorities` call sets it to the maximum of its old value and the
supplied priorities (it either keeps the old value or equals one of the
supplied priorities, and it bounds them all from above).  `sample` reads
but never writes buffer state — in this embedding it is a pure
function of the state, so it cannot change `max_priority`. -/
theorem c6_max_priority_monotone (buf : PrioritizedExperienceReplay T) (t : T)
    (pairs : List (Nat × ℝ)) :
    (buf.addTransition t).max_priority = buf.max_priority ∧
    buf.max_priority ≤ (buf.updatePriorities pairs).1.max_priority ∧
    ((buf.updatePriorities pairs).2 = none →
      ((buf.updatePriorities pairs).1.max_priority = buf.max_priority ∨
        ∃ pr ∈ pairs, (buf.updatePriorities pairs).1.max_priority = pr.2) ∧
      ∀ pr ∈ pairs, pr.2 ≤ (buf.updatePriorities pairs).1.max_priority) :=
  ⟨rfl, PrioritizedExperienceReplay.updatePriorities_max_mono buf pairs,
   fun h => PrioritizedExperienceReplay.updatePriorities_ok_max buf pairs h⟩

/-- Witness for C6: `perOne`, insert 2, update with the single pair `(0, 3)`. -/
theorem c6_max_priority_monotone_witness :
    (perOne.addTransition 2).max_priority = perOne.max_priority ∧
    perOne.max_priority ≤ (perOne.updatePriorities [(0, 3)]).1.max_priority ∧
    ((perOne.updatePriorities [(0, 3)]).2 = none →
      ((perOne.updatePriorities [(0, 3)]).1.max_priority = perOne.max_priority ∨
        ∃ pr ∈ ([(0, 3)] : List (Nat × ℝ)),
          (perOne.updatePriorities [(0, 3)]).1.max_priority = pr.2) ∧
      ∀ pr ∈ ([(0, 3)] : List (Nat × ℝ)),
        pr.2 ≤ (perOne.updatePriorities [(0, 3)]).1.max_priority) :=
  c6_max_priority_monotone perOne 2 [(0, 3)]

namespace PrioritizedExperienceReplay

theorem new_inv (max_size : Nat) (a b : ℝ) (h : 1 ≤ max_size) :
    (new T max_size a b).Inv := by
  refine ⟨h, Nat.zero_le max_size, Nat.le_pow_clog one_lt_two max_size, h, ?_, ?_, ?_,
    one_pos, fun i _ => rfl, fun i _ => rfl, ?_, ?_⟩
  · intro _
    rfl
  · intro _
    rfl
  · intro h0
    exact absurd rfl h0
  · intro i hi
    exact absurd hi (Nat.not_lt_zero i)
  · intro i hi
    exact absurd hi (Nat.not_lt_zero i)

theorem addTransition_inv (buf : PrioritizedExperienceReplay T) (t : T) (h : buf.Inv) :
    (buf.addTransition t).Inv := by
  obtain ⟨h1, h2, h3, h4, h5, h6, h7, h8, h9, h10, h11, h12⟩ := h
  have hstore : (buf.addTransition t).store = buf.store.addTransition t := rfl
  have hsize : (buf.addTransition t).store.size = min (buf.store.size + 1) buf.store.max_size :=
    rfl
  have hidx : (buf.addTransition t).store.current_idx
      = (buf.store.current_idx + 1) % buf.store.max_size := rfl
  have hmax : (buf.addTransition t).store.max_size = buf.store.max_size := rfl
  have hlt : ∀ i, i < (buf.addTransition t).store.size → i ≠ buf.store.current_idx →
      i < buf.store.size := by
    intro i hi hne
    rw [hsize] at hi
    rcases Nat.lt_or_ge buf.store.size buf.store.max_size with hc | hc
    · have := h5 hc
      omega
    · omega
  have hge : ∀ i, (buf.addTransition t).store.size ≤ i → i ≠ buf.store.current_idx := by
    intro i hi
    rw [hsize] at hi
    rcases Nat.lt_or_ge buf.store.size buf.store.max_size with hc | hc
    · have := h5 hc
      omega
    · omega
  refine ⟨by rw [hmax]; exact h1, by rw [hsize, hmax]; omega, by rw [hmax]; exact h3,
    by rw [hidx, hmax]; exact Nat.mod_lt _ (by omega), ?_, ?_, ?_, h8, ?_, ?_, ?_, ?_⟩
  · intro hlt'
    rw [hsize, hmax] at hlt'
    rw [hsize]
    rw [hidx]
    have hs1 : buf.store.size + 1 < buf.store.max_size := by omega
    rw [h5 (by omega), Nat.mod_eq_of_lt hs1]
    omega
  · intro h0
    rw [hsize] at h0
    omega
  · intro _
    show ((if buf.store.size = 0 then List.replicate buf.store.max_size t
        else buf.store.transitions).set buf.store.current_idx t).length
      = buf.store.max_size
    rw [List.length_set]
    split
    · simp
    · exact h7 (by assumption)
  · intro i hi
    show Function.update buf.st_sum buf.store.current_idx
      (buf.max_priority ^ buf.alpha) i = 0
    rw [Function.update_noteq (hge i hi)]
    exact h9 i (by rw [hsize] at hi; omega)
  · intro i hi
    show Function.update buf.st_min buf.store.current_idx
      ((buf.max_priority ^ buf.alpha : ℝ) : WithTop ℝ) i = ⊤
    rw [Function.update_noteq (hge i hi)]
    exact h10 i (by rw [hsize] at hi; omega)
  · intro i hi
    show Function.update buf.st_min buf.store.current_idx
        ((buf.max_priority ^ buf.alpha : ℝ) : WithTop ℝ) i
      = ((Function.update buf.st_sum buf.store.current_idx
          (buf.max_priority ^ buf.alpha) i : ℝ) : WithTop ℝ)
    rcases eq_or_ne i buf.store.current_idx with rfl | hne
    · rw [Function.update_same, Function.update_same]
    · rw [Function.update_noteq hne, Function.update_noteq hne]
      exact h11 i (hlt i hi hne)
  · intro i hi
    show 0 < Function.update buf.st_sum buf.store.current_idx
      (buf.max_priority ^ buf.alpha) i
    rcases eq_or_ne i buf.store.current_idx with rfl | hne
    · rw [Function.update_same]
      exact Real.rpow_pos_of_pos h8 _
    · rw [Function.update_noteq hne]
      exact h12 i (hlt i hi hne)

theorem applyPriority_inv (buf : PrioritizedExperienceReplay T) (idx : Nat) (p : ℝ)
    (hp : 0 < p) (hi : idx < buf.store.size) (h : buf.Inv) :
    (buf.applyPriority idx p).Inv := by
  obtain ⟨h1, h2, h3, h4, h5, h6, h7, h8, h9, h10, h11, h12⟩ := h
  refine ⟨h1, h2, h3, h4, h5, h6, h7, lt_of_lt_of_le h8 (le_max_left _ _), ?_, ?_, ?_, ?_⟩
  · intro i hge
    have hge' : buf.store.size ≤ i := hge
    show Function.update buf.st_sum idx (p ^ buf.alpha) i = 0
    rw [Function.update_noteq (by omega)]
    exact h9 i hge'
  · intro i hge
    have hge' : buf.store.size ≤ i := hge
    show Function.update buf.st_min idx ((p ^ buf.alpha : ℝ) : WithTop ℝ) i = ⊤
    rw [Function.update_noteq (by omega)]
    exact h10 i hge'
  · intro i hilt
    have hilt' : i < buf.store.size := hilt
    show Function.update buf.st_min idx ((p ^ buf.alpha : ℝ) : WithTop ℝ) i
      = ((Function.update buf.st_sum idx (p ^ buf.alpha) i : ℝ) : WithTop ℝ)
    rcases eq_or_ne i idx with rfl | hne
    · rw [Function.update_same, Function.update_same]
    · rw [Function.update_noteq hne, Function.update_noteq hne]
      exact h11 i hilt'
  · intro i hilt
    have hilt' : i < buf.store.size := hilt
    show 0 < Function.update buf.st_sum idx (p ^ buf.alpha) i
    rcases eq_or_ne i idx with rfl | hne
    · rw [Function.update_same]
      exact Real.rpow_pos_of_pos hp _
    · rw [Function.update_noteq hne]
      exact h12 i hilt'

theorem updatePriorities_inv (buf : PrioritizedExperienceReplay T)
    (pairs : List (Nat × ℝ)) (h : buf.Inv) :
    ((buf.updatePriorities pairs).1).Inv := by
  induction pairs generalizing buf with
  | nil => exact h
  | cons pr rest ih =>
    obtain ⟨i, p⟩ := pr
    show (if 0 < p then
        if i < buf.store.size then (buf.applyPriority i p).updatePriorities rest
        else (buf, some Err.indexOutOfRange)
      else (buf, some Err.invalidPriority)).1.Inv
    by_cases hp : 0 < p
    · by_cases hi : i < buf.store.size
      · rw [if_pos hp, if_pos hi]
        exact ih _ (applyPriority_inv buf i p hp hi h)
      · rw [if_pos hp, if_neg hi]
        exact h
    · rw [if_neg hp]
      exact h

theorem reachable_inv (buf : PrioritizedExperienceReplay T) (h : Reachable buf) :
    buf.Inv := by
  induction h with
  | init max_size a b h => exact new_inv max_size a b h
  | add t _ ih => exact addTransition_inv _ t ih
  | update pairs _ ih => exact updatePriorities_inv _ pairs ih
  | setBeta b _ ih => exact ih

theorem inv_total_eq (buf : PrioritizedExperienceReplay T) (h : buf.Inv)
    (hs : 1 ≤ buf.store.size) :
    buf.sumRange 0 (buf.store.size - 1)
      = ∑ i ∈ Finset.range buf.store.size, buf.st_sum i ∧
    buf.sumAll = ∑ i ∈ Finset.range buf.store.size, buf.st_sum i := by
  obtain ⟨h1, h2, h3, h4, h5, h6, h7, h8, h9, h10, h11, h12⟩ := h
  constructor
  · unfold sumRange
    have : Finset.Icc 0 (buf.store.size - 1) = Finset.range buf.store.size := by
      rw [← Nat.Ico_succ_right, Nat.succ_eq_add_one]
      have : buf.store.size - 1 + 1 = buf.store.size := by omega
      rw [this, Finset.range_eq_Ico]
    rw [this]
  · unfold sumAll
    refine (Finset.sum_subset ?_ ?_).symm
    · intro x hx
      rw [Finset.mem_range] at hx ⊢
      omega
    · intro x _ hx
      rw [Finset.mem_range] at hx
      exact h9 x (by omega)

end PrioritizedExperienceReplay

/-- C9: in every reachable prioritized buffer state with `size ≥ 1`, every
sum-tree leaf at an index `≥ size` still holds the combine identity 0,
and hence the total priority mass used to build the sampling strata —
`sum(0, size - 1)`, the range combine over the occupied leaves — equals
the whole-tree sum used as the normalizer for `p_sample` and `p_min`. -/
theorem c9_range_sum_eq_total (buf : PrioritizedExperienceReplay T)
    (hR : PrioritizedExperienceReplay.Reachable buf) (hs : 1 ≤ buf.store.size) :
    (∀ i, buf.store.size ≤ i → buf.st_sum i = 0) ∧
    buf.sumRange 0 (buf.store.size - 1) = buf.sumAll := by
  have h := PrioritizedExperienceReplay.reachable_inv buf hR
  obtain ⟨he1, he2⟩ := PrioritizedExperienceReplay.inv_total_eq buf h hs
  exact ⟨h.2.2.2.2.2.2.2.2.1, by rw [he1, he2]⟩

/-- Witness for C9: the reachable one-insert buffer of capacity 1. -/
theorem c9_range_sum_eq_total_witness :
    PrioritizedExperienceReplay.Reachable
      ((PrioritizedExperienceReplay.new Nat 1 1 1).addTransition 0) ∧
    1 ≤ ((PrioritizedExperienceReplay.new Nat 1 1 1).addTransition 0).store.size ∧
    ((∀ i, ((PrioritizedExperienceReplay.new Nat 1 1 1).addTransition 0).store.size ≤ i →
        ((PrioritizedExperienceReplay.new Nat 1 1 1).addTransition 0).st_sum i = 0) ∧
     ((PrioritizedExperienceReplay.new Nat 1 1 1).addTransition 0).sumRange 0
         (((PrioritizedExperienceReplay.new Nat 1 1 1).addTransition 0).store.size - 1)
       = ((PrioritizedExperienceReplay.new Nat 1 1 1).addTransition 0).sumAll) :=
  ⟨PrioritizedExperienceReplay.Reachable.add 0
     (PrioritizedExperienceReplay.Reachable.init 1 1 1 (le_refl 1)),
   le_refl 1,
   c9_range_sum_eq_total ((PrioritizedExperienceReplay.new Nat 1 1 1).addTransition 0)
     (PrioritizedExperienceReplay.Reachable.add 0
       (PrioritizedExperienceReplay.Reachable.init 1 1 1 (le_refl 1)))
     (le_refl 1)⟩

namespace PrioritizedExperienceReplay

theorem inv_minVal (buf : PrioritizedExperienceReplay T) (h : buf.Inv)
    (hs : 1 ≤ buf.store.size) :
    0 < buf.minVal ∧ ∀ i, i < buf.store.size → buf.minVal ≤ buf.st_sum i := by
  obtain ⟨h1, h2, h3, h4, h5, h6, h7, h8, h9, h10, h11, h12⟩ := h
  have hne : (Finset.range buf.store.size).Nonempty := ⟨0, Finset.mem_range.mpr (by omega)⟩
  have hstep1 : buf.minAll = (Finset.range buf.store.size).inf buf.st_min := by
    unfold minAll
    apply le_antisymm
    · exact Finset.inf_mono (Finset.range_subset.mpr (by omega))
    · apply Finset.le_inf
      intro b hb
      rcases Nat.lt_or_ge b buf.store.size with hblt | hbge
      · exact Finset.inf_le (Finset.mem_range.mpr hblt)
      · rw [h10 b hbge]
        exact le_top
  have hstep2 : (Finset.range buf.store.size).inf buf.st_min
      = (Finset.range buf.store.size).inf fun i => ((buf.st_sum i : ℝ) : WithTop ℝ) :=
    Finset.inf_congr rfl fun i hi => h11 i (Finset.mem_range.mp hi)
  have hstep3 : (Finset.range buf.store.size).inf (fun i => ((buf.st_sum i : ℝ) : WithTop ℝ))
      = (((Finset.range buf.store.size).inf' hne buf.st_sum : ℝ) : WithTop ℝ) :=
    (Finset.coe_inf' hne buf.st_sum).symm
  have hval : buf.minVal = (Finset.range buf.store.size).inf' hne buf.st_sum := by
    unfold minVal
    rw [hstep1, hstep2, hstep3, WithTop.untop'_coe]
  constructor
  · rw [hval]
    exact (Finset.lt_inf'_iff hne).mpr fun i hi => h12 i (Finset.mem_range.mp hi)
  · intro i hi
    rw [hval]
    exact Finset.inf'_le _ (Finset.mem_range.mpr hi)

theorem findPrefIdx_lt (buf : PrioritizedExperienceReplay T) (hs : 1 ≤ buf.store.size)
    (target : ℝ)
    (ht : target < ∑ j ∈ Finset.range buf.store.size, buf.st_sum j) :
    buf.findPrefIdx target < buf.store.size := by
  have hmem : buf.store.size - 1 ∈ {i | target < buf.prefSum i} := by
    show target < buf.prefSum (buf.store.size - 1)
    unfold prefSum
    have hsz : buf.store.size - 1 + 1 = buf.store.size := by omega
    rw [hsz]
    exact ht
  have hle := Nat.sInf_le hmem
  unfold findPrefIdx
  omega

end PrioritizedExperienceReplay

/-- C4: for a well-formed prioritized buffer with `size ≥ 1` (so all
occupied leaf priorities are strictly positive), `beta ∈ [0, 1]`, a
positive requested batch size and stratum draws in `[0, 1)`, every
returned importance weight lies in `(0, 1]`: each weight is
`(p_sample * size) ** (-beta)` divided by the maximal weight
`(p_min * size) ** (-beta)` with `p_sample = st_sum[idx] / sum()` and
`p_min = min() / sum()`, every sampled index is an occupied slot, and
`p_sample ≥ p_min` for every sampled index. -/
theorem c4_weights_in_unit_interval (buf : PrioritizedExperienceReplay T)
    (batch_size : Nat) (us : Nat → ℝ) (h : buf.Inv) (hs : 1 ≤ buf.store.size)
    (hb0 : 0 ≤ buf.beta) (_hb1 : buf.beta ≤ 1) (hbs : 1 ≤ batch_size)
    (hus : ∀ i, 0 ≤ us i ∧ us i < 1) :
    ∀ pr ∈ buf.sample batch_size us,
      pr.2.2 < buf.store.size ∧
      buf.minVal / buf.sumAll ≤ buf.st_sum pr.2.2 / buf.sumAll ∧
      pr.2.1 = ((buf.st_sum pr.2.2 / buf.sumAll) * (buf.store.size : ℝ)) ^ (-buf.beta)
        / ((buf.minVal / buf.sumAll) * (buf.store.size : ℝ)) ^ (-buf.beta) ∧
      0 < pr.2.1 ∧ pr.2.1 ≤ 1 := by
  obtain ⟨hm0, hmle⟩ := PrioritizedExperienceReplay.inv_minVal buf h hs
  obtain ⟨hrange, hall⟩ := PrioritizedExperienceReplay.inv_total_eq buf h hs
  obtain ⟨h1, h2, h3, h4, h5, h6, h7, h8, h9, h10, h11, h12⟩ := h
  have hS0 : (0:ℝ) < ∑ j ∈ Finset.range buf.store.size, buf.st_sum j :=
    Finset.sum_pos (fun j hj => h12 j (Finset.mem_range.mp hj))
      ⟨0, Finset.mem_range.mpr (by omega)⟩
  have hsumAll0 : (0:ℝ) < buf.sumAll := by rw [hall]; exact hS0
  intro pr hpr
  unfold PrioritizedExperienceReplay.sample at hpr
  simp only [List.mem_map, List.mem_range] at hpr
  obtain ⟨idx, ⟨i, hi, hidx⟩, rfl⟩ := hpr
  have hbs1 : 1 ≤ clampBatch buf.store.size batch_size := by
    unfold clampBatch
    split <;> omega
  have hbsR : (0:ℝ) < (clampBatch buf.store.size batch_size : ℝ) := by
    exact_mod_cast hbs1
  have hw0 : (0:ℝ) < buf.sumRange 0 (buf.store.size - 1)
      / (clampBatch buf.store.size batch_size : ℝ) := by
    apply div_pos _ hbsR
    rw [hrange]
    exact hS0
  have hmass : us i * (buf.sumRange 0 (buf.store.size - 1)
        / (clampBatch buf.store.size batch_size : ℝ))
      + (i : ℝ) * (buf.sumRange 0 (buf.store.size - 1)
        / (clampBatch buf.store.size batch_size : ℝ))
      < ∑ j ∈ Finset.range buf.store.size, buf.st_sum j := by
    have hstep : us i * (buf.sumRange 0 (buf.store.size - 1)
          / (clampBatch buf.store.size batch_size : ℝ))
        + (i : ℝ) * (buf.sumRange 0 (buf.store.size - 1)
          / (clampBatch buf.store.size batch_size : ℝ))
        < (1 + (i : ℝ)) * (buf.sumRange 0 (buf.store.size - 1)
          / (clampBatch buf.store.size batch_size : ℝ)) := by
      have := mul_lt_mul_of_pos_right (hus i).2 hw0
      nlinarith [this]
    have hcast : (1 + (i : ℝ)) ≤ (clampBatch buf.store.size batch_size : ℝ) := by
      exact_mod_cast (by omega : 1 + i ≤ clampBatch buf.store.size batch_size)
    have hstep2 : (1 + (i : ℝ)) * (buf.sumRange 0 (buf.store.size - 1)
          / (clampBatch buf.store.size batch_size : ℝ))
        ≤ (clampBatch buf.store.size batch_size : ℝ)
          * (buf.sumRange 0 (buf.store.size - 1)
            / (clampBatch buf.store.size batch_size : ℝ)) :=
      mul_le_mul_of_nonneg_right hcast (le_of_lt hw0)
    have hstep3 : (clampBatch buf.store.size batch_size : ℝ)
          * (buf.sumRange 0 (buf.store.size - 1)
            / (clampBatch buf.store.size batch_size : ℝ))
        = buf.sumRange 0 (buf.store.size - 1) := by
      rw [mul_comm]
      exact div_mul_cancel₀ _ (ne_of_gt hbsR)
    calc us i * (buf.sumRange 0 (buf.store.size - 1)
          / (clampBatch buf.store.size batch_size : ℝ))
        + (i : ℝ) * (buf.sumRange 0 (buf.store.size - 1)
          / (clampBatch buf.store.size batch_size : ℝ))
        < (1 + (i : ℝ)) * (buf.sumRange 0 (buf.store.size - 1)
          / (clampBatch buf.store.size batch_size : ℝ)) := hstep
      _ ≤ (clampBatch buf.store.size batch_size : ℝ)
          * (buf.sumRange 0 (buf.store.size - 1)
            / (clampBatch buf.store.size batch_size : ℝ)) := hstep2
      _ = buf.sumRange 0 (buf.store.size - 1) := hstep3
      _ = ∑ j ∈ Finset.range buf.store.size, buf.st_sum j := hrange
  have hidxlt : idx < buf.store.size := by
    rw [← hidx]
    exact PrioritizedExperienceReplay.findPrefIdx_lt buf hs _ hmass
  have hsz0 : (0:ℝ) < (buf.store.size : ℝ) := by exact_mod_cast hs
  have hA0 : 0 < (buf.st_sum idx / buf.sumAll) * (buf.store.size : ℝ) :=
    mul_pos (div_pos (h12 idx hidxlt) hsumAll0) hsz0
  have hB0 : 0 < (buf.minVal / buf.sumAll) * (buf.store.size : ℝ) :=
    mul_pos (div_pos hm0 hsumAll0) hsz0
  have hBA : (buf.minVal / buf.sumAll) * (buf.store.size : ℝ)
      ≤ (buf.st_sum idx / buf.sumAll) * (buf.store.size : ℝ) :=
    mul_le_mul_of_nonneg_right ((div_le_div_right hsumAll0).mpr (hmle idx hidxlt))
      (le_of_lt hsz0)
  have hquot : ((buf.st_sum idx / buf.sumAll) * (buf.store.size : ℝ)) ^ (-buf.beta)
        / (((buf.minVal / buf.sumAll) * (buf.store.size : ℝ)) ^ (-buf.beta))
      = (((buf.st_sum idx / buf.sumAll) * (buf.store.size : ℝ))
          / ((buf.minVal / buf.sumAll) * (buf.store.size : ℝ))) ^ (-buf.beta) :=
    (Real.div_rpow (le_of_lt hA0) (le_of_lt hB0) _).symm
  refine ⟨hidxlt, (div_le_div_right hsumAll0).mpr (hmle idx hidxlt), rfl, ?_, ?_⟩
  · show 0 < ((buf.st_sum idx / buf.sumAll) * (buf.store.size : ℝ)) ^ (-buf.beta)
        / (((buf.minVal / buf.sumAll) * (buf.store.size : ℝ)) ^ (-buf.beta))
    rw [hquot]
    exact Real.rpow_pos_of_pos (div_pos hA0 hB0) _
  · show ((buf.st_sum idx / buf.sumAll) * (buf.store.size : ℝ)) ^ (-buf.beta)
        / (((buf.minVal / buf.sumAll) * (buf.store.size : ℝ)) ^ (-buf.beta)) ≤ 1
    rw [hquot]
    exact Real.rpow_le_one_of_one_le_of_nonpos ((one_le_div hB0).mpr hBA)
      (neg_nonpos.mpr hb0)

/-- C5: with `beta = 0` every importance weight returned by `sample` is
exactly 1, for every priority distribution stored in the trees: both
`(p_sample * size) ** (-0)` and the maximal weight `(p_min * size) ** (-0)`
evaluate to 1, so their quotient is 1. -/
theorem c5_beta_zero_weights_one (buf : PrioritizedExperienceReplay T)
    (h0 : buf.beta = 0) (_hs : 1 ≤ buf.store.size)
    (batch_size : Nat) (us : Nat → ℝ) :
    ∀ pr ∈ buf.sample batch_size us, pr.2.1 = 1 := by
  intro pr hpr
  unfold PrioritizedExperienceReplay.sample at hpr
  simp only [List.mem_map, List.mem_range] at hpr
  obtain ⟨idx, ⟨i, hi, hidx⟩, rfl⟩ := hpr
  show ((buf.st_sum idx / buf.sumAll) * (buf.store.size : ℝ)) ^ (-buf.beta)
      / (((buf.minVal / buf.sumAll) * (buf.store.size : ℝ)) ^ (-buf.beta)) = 1
  rw [h0, neg_zero, Real.rpow_zero, Real.rpow_zero]
  norm_num

/-- Witness for C4: the one-slot buffer `perOne` (`beta = 1`), batch size
1, stratum draw 1/2. -/
theorem c4_weights_in_unit_interval_witness :
    perOne.Inv ∧ 1 ≤ perOne.store.size ∧ (0:ℝ) ≤ perOne.beta ∧ perOne.beta ≤ 1 ∧
    (1:Nat) ≤ 1 ∧
    (∀ i : Nat, 0 ≤ (fun _ : Nat => (1:ℝ)/2) i ∧ (fun _ : Nat => (1:ℝ)/2) i < 1) ∧
    ∀ pr ∈ perOne.sample 1 (fun _ => (1:ℝ)/2),
      pr.2.2 < perOne.store.size ∧
      perOne.minVal / perOne.sumAll ≤ perOne.st_sum pr.2.2 / perOne.sumAll ∧
      pr.2.1 = ((perOne.st_sum pr.2.2 / perOne.sumAll)
            * (perOne.store.size : ℝ)) ^ (-perOne.beta)
        / ((perOne.minVal / perOne.sumAll) * (perOne.store.size : ℝ)) ^ (-perOne.beta) ∧
      0 < pr.2.1 ∧ pr.2.1 ≤ 1 :=
  ⟨perOne_inv, le_refl 1, zero_le_one, le_refl 1, le_refl 1,
   fun _ => ⟨by norm_num, by norm_num⟩,
   c4_weights_in_unit_interval perOne 1 (fun _ => (1:ℝ)/2) perOne_inv (le_refl 1)
     zero_le_one (le_refl 1) (le_refl 1) (fun _ => ⟨by norm_num, by norm_num⟩)⟩

/-- Witness for C5: `perOne` with `beta` set to 0, batch size 1, stratum
draw 1/2. -/
theorem c5_beta_zero_weights_one_witness :
    ({ perOne with beta := 0 } : PrioritizedExperienceReplay Nat).beta = 0 ∧
    1 ≤ ({ perOne with beta := 0 } : PrioritizedExperienceReplay Nat).store.size ∧
    ∀ pr ∈ ({ perOne with beta := 0 } : PrioritizedExperienceReplay Nat).sample 1
        (fun _ => (1:ℝ)/2), pr.2.1 = 1 :=
  ⟨rfl, le_refl 1,
   c5_beta_zero_weights_one { perOne with beta := 0 } rfl (le_refl 1) 1 (fun _ => (1:ℝ)/2)⟩
